import Mathlib

/-!
Shallow embedding of the minimint federated wallet module
(`src/modules/minimint-wallet/src/lib.rs`).

Machine integers (`u64` sat amounts, `u32` heights) are modelled as `Nat`;
the Rust `bitcoin::Amount` arithmetic panics on overflow/underflow rather
than wrapping, and the non-underflow of the one subtraction in `create_tx`
is proved below, so unbounded `Nat` arithmetic is faithful on the
panic-free executions the theorems describe.  Rust panics (`unwrap`,
`expect`, `assert!`, explicit `panic!`) are modelled as `Option.none`
results.  External collaborators (secp256k1/miniscript script derivation,
FROST primitives, transaction hashing, the bitcoind RPC) are capability
fields of `WalletCfg`, mirroring the trait objects the source consumes.
-/

namespace Minimint

/-- Feerate (sats per kilo-virtual-byte), from `struct Feerate`. -/
structure Feerate where
  sats_per_kvb : Nat
deriving DecidableEq, Repr

/-- `Feerate::calculate_fee`: `sats_per_kvb * weight / 1000`, truncating. -/
def Feerate.calculate_fee (f : Feerate) (weight : Nat) : Nat :=
  f.sats_per_kvb * weight / 1000

/-- `struct PegOutFees`. -/
structure PegOutFees where
  fee_rate : Feerate
  total_weight : Nat
deriving DecidableEq, Repr

/-- `PegOutFees::amount`. -/
def PegOutFees.amount (f : PegOutFees) : Nat :=
  f.fee_rate.calculate_fee f.total_weight

/-- Bitcoin `Script`: opaque to this module.  The source only uses a
script's byte length (`len`), its `dust_value()` and equality of
`script_pubkey`s, so a script is modelled by those observations plus an
identity tag distinguishing distinct scripts of equal length. -/
structure Script where
  bytesLen : Nat
  dust_value : Nat
  tag : Nat
deriving DecidableEq, Repr

/-- `bitcoin::Network` (the four variants used by the source). -/
inductive Network where
  | bitcoin
  | testnet
  | signet
  | regtest
deriving DecidableEq, Repr

/-- `bitcoin::AddressType` variants relevant to `is_address_valid_for_network`. -/
inductive AddressType where
  | p2pkh
  | p2sh
  | p2wpkh
  | p2wsh
  | p2tr
deriving DecidableEq, Repr

/-- `bitcoin::Address`: the source reads `address.network`,
`address.address_type()` and `address.script_pubkey()`. -/
structure Address where
  network : Network
  address_type : Option AddressType
  script_pubkey : Script
deriving DecidableEq, Repr

/-- `fn is_address_valid_for_network` (verbatim case analysis). -/
def is_address_valid_for_network (address : Address) (network : Network) : Bool :=
  match address.network, address.address_type with
  | Network.testnet, some AddressType.p2pkh =>
      [Network.testnet, Network.regtest, Network.signet].contains network
  | Network.testnet, some AddressType.p2sh =>
      [Network.testnet, Network.regtest, Network.signet].contains network
  | Network.testnet, _ =>
      [Network.testnet, Network.signet].contains network
  | addrNet, _ => addrNet == network

/-- A transaction output (`bitcoin::TxOut`): value in sats plus script. -/
structure TxOut where
  value : Nat
  script_pubkey : Script
deriving DecidableEq, Repr

/-- A transaction input (`bitcoin::TxIn`); `script_sig` is always empty in
this module so it is omitted. -/
structure TxIn where
  previous_output : Nat × Nat
  sequence : Nat
  witness : List (List Nat)
deriving DecidableEq, Repr

/-- `bitcoin::Transaction`. -/
structure Transaction where
  version : Nat
  lock_time : Nat
  input : List TxIn
  output : List TxOut
deriving DecidableEq, Repr

/-- BIP-174 proprietary key.  The Rust field `prefix` is renamed `tagBytes`
(reserved word in this development); it carries the literal b"minimint". -/
structure ProprietaryKey where
  tagBytes : String
  subtype : Nat
  key : List Nat
deriving DecidableEq, Repr

/-- `fn proprietary_tweak_key`. -/
def proprietary_tweak_key : ProprietaryKey :=
  { tagBytes := "minimint", subtype := 0, key := [] }

/-- Look up the sole proprietary key used by the module in a PSBT
proprietary map (`BTreeMap<ProprietaryKey, Vec<u8>>` as association list). -/
def propGet (m : List (ProprietaryKey × List Nat)) : Option (List Nat) :=
  (m.find? (fun p => p.1 == proprietary_tweak_key)).map Prod.snd

/-- PSBT per-input data: the fields `create_tx` populates. -/
structure PsbtInput where
  witness_utxo : Option TxOut
  proprietary : List (ProprietaryKey × List Nat)
deriving DecidableEq, Repr

/-- PSBT per-output data. -/
structure PsbtOutput where
  proprietary : List (ProprietaryKey × List Nat)
deriving DecidableEq, Repr

/-- `PartiallySignedTransaction` (the fields the source reads). -/
structure Psbt where
  unsigned_tx : Transaction
  inputs : List PsbtInput
  outputs : List PsbtOutput
deriving DecidableEq, Repr

/-- FROST public nonce, opaque bytes. -/
abbrev FrostNonce := List Nat

/-- FROST signature share, opaque scalar. -/
abbrev FrostSigShare := Nat

/-- `struct PegOutNonceItem`. -/
structure PegOutNonceItem where
  txid : Nat
  nonces : List FrostNonce
deriving DecidableEq, Repr

/-- `struct PegOutSignatureItem`. -/
structure PegOutSignatureItem where
  txid : Nat
  signatures : List FrostSigShare
deriving DecidableEq, Repr

/-- `struct SpendableUTXO`. -/
structure SpendableUTXO where
  tweak : List Nat
  amount : Nat
deriving DecidableEq, Repr

/-- `struct UnsignedTransaction`. -/
structure UnsignedTransaction where
  psbt : Psbt
  nonces : List (Nat × PegOutNonceItem)
  signatures : List (Nat × PegOutSignatureItem)
  change : Nat
  fees : PegOutFees
deriving DecidableEq, Repr

/-- `struct PendingTransaction`. -/
structure PendingTransaction where
  tx : Transaction
  tweak : List Nat
  change : Nat
deriving DecidableEq, Repr

/-- `struct RoundConsensus`. -/
structure RoundConsensus where
  block_height : Nat
  fee_rate : Feerate
  randomness_beacon : List Nat
deriving DecidableEq, Repr

/-- `struct RoundConsensusItem`. -/
structure RoundConsensusItem where
  block_height : Nat
  fee_rate : Feerate
  randomness : List Nat
deriving DecidableEq, Repr

/-- `enum WalletConsensusItem`. -/
inductive WalletConsensusItem where
  | roundConsensus (item : RoundConsensusItem)
  | pegOutNonce (item : PegOutNonceItem)
  | pegOutSignature (item : PegOutSignatureItem)
deriving DecidableEq, Repr

/-- `enum WalletError` (error payloads that are opaque to the claims are
dropped). -/
inductive WalletError where
  | WrongNetwork (expected got : Network)
  | RpcError
  | UnknownNetwork
  | UnknownPegInProofBlock (hash : Nat)
  | PegInProofError
  | PegInAlreadyClaimed
  | PegOutFeeRate (actual consensus : Feerate)
  | NotEnoughSpendableUTXO
deriving DecidableEq, Repr

/-- Equality of `Except` results is decidable (used to evaluate the model
on concrete inputs). -/
instance exceptDecEq {ε α : Type} [DecidableEq ε] [DecidableEq α] :
    DecidableEq (Except ε α) := fun x y =>
  match x, y with
  | Except.ok a, Except.ok b => decidable_of_iff (a = b) (by simp)
  | Except.error a, Except.error b => decidable_of_iff (a = b) (by simp)
  | Except.ok _, Except.error _ => isFalse (by simp)
  | Except.error _, Except.ok _ => isFalse (by simp)

/-- `struct PegOut` (the peg-out output type). -/
structure PegOut where
  recipient : Address
  amount : Nat
  fees : PegOutFees
deriving DecidableEq, Repr

/-- The KV store contents this module owns (see the `db` schema): one
field per key prefix.  Tables are association lists keyed by txid /
outpoint, matching the store's unique-key discipline. -/
structure WalletState where
  roundConsensus : Option RoundConsensus
  blockHashes : List Nat
  utxos : List ((Nat × Nat) × SpendableUTXO)
  unsignedTxs : List (Nat × UnsignedTransaction)
  pendingTxs : List (Nat × PendingTransaction)
  nonceCI : List (Nat × List FrostNonce)
  sigCI : List (Nat × List FrostSigShare)
deriving DecidableEq, Repr

/-- Static configuration plus the external capabilities the wallet
consumes (descriptor/script derivation, FROST library, tx hashing,
bitcoind RPC).  The crypto functions are federation-global: per-peer data
(`peg_in_key`) is folded into them as the explicit peer argument, so two
peers of the same federation share every field except `peer_id`. -/
structure WalletCfg where
  network : Network
  peer_id : Nat
  /-- `cfg.frost_key.threshold()`. -/
  threshold : Nat
  default_fee : Feerate
  /-- `descriptor.tweak(..).script_pubkey()` / `StatelessWallet::derive_script`:
  deterministic per-tweak script derivation (external secp/miniscript). -/
  derive_script : List Nat → Script
  /-- `descriptor.max_satisfaction_weight()`. -/
  max_satisfaction_weight : Nat
  /-- `Transaction::txid()` (external hash). -/
  txid_of : Transaction → Nat
  /-- `frost.gen_nonce(peg_in_key, sid).public` for peer `p` and
  `sid = be_bytes(input_index) ++ txid`, modelled as the pair. -/
  gen_nonce : Nat → Nat × Nat → FrostNonce
  /-- `frost.sign(..)`: the share peer `p` produces for `(txid, input)`. -/
  sign_share : Nat → Nat → Nat → FrostSigShare
  /-- `frost.verify_signature_share` against the sign session derived from
  the given unsigned tx and input index. -/
  verify_share : UnsignedTransaction → Nat → Nat → FrostSigShare → Bool
  /-- whether the combined signature for `(tx, input)` passes the
  `assert!(frost.schnorr.verify(..))` at finalization. -/
  combine_verifies : UnsignedTransaction → Nat → Bool
  /-- `frost.combine_signature_shares(..).to_bytes()` for `(tx, input)`. -/
  combine_sig : UnsignedTransaction → Nat → List Nat
  /-- RPC `get_block_hash`. -/
  get_block_hash : Nat → Nat
  /-- RPC `get_block` (list of transactions of the block with that hash). -/
  get_block : Nat → List Transaction

/-! ### Association-list KV helpers -/

/-- Lookup in a keyed table (first match, as the store's point lookup). -/
def lookupKV {κ α : Type} [DecidableEq κ] (k : κ) : List (κ × α) → Option α
  | [] => none
  | p :: rest => if p.1 = k then some p.2 else lookupKV k rest

/-- Delete (`batch.append_delete`). -/
def eraseKV {κ α : Type} [DecidableEq κ] (k : κ) : List (κ × α) → List (κ × α)
  | [] => []
  | p :: rest => if p.1 = k then eraseKV k rest else p :: eraseKV k rest

/-- Insert-or-overwrite (`batch.append_insert`). -/
def insertKV {κ α : Type} [DecidableEq κ] (k : κ) (v : α) (l : List (κ × α)) : List (κ × α) :=
  eraseKV k l ++ [(k, v)]

/-! ### Stateless transaction builder (`StatelessWallet::create_tx`) -/

/-- Weight of the two fixed outputs (destination + change), verbatim from
`create_tx`: `destination.len()*4 + 1 + 32 + 1 + change_script.len()*4 + 32`. -/
def out_weight (destination change_script : Script) : Nat :=
  destination.bytesLen * 4 + 1 + 32 + 1 + change_script.bytesLen * 4 + 32

/-- Initial `total_weight`: `16 + 12 + 12 + out_weight + 16`. -/
def base_weight (destination change_script : Script) : Nat :=
  16 + 12 + 12 + out_weight destination change_script + 16

/-- `max_input_weight`: descriptor max satisfaction weight `+ 128 + 16 + 16`. -/
def max_input_weight (cfg : WalletCfg) : Nat :=
  cfg.max_satisfaction_weight + 128 + 16 + 16

/-- Sum of the amounts of a UTXO selection. -/
def sumAmounts (l : List ((Nat × Nat) × SpendableUTXO)) : Nat :=
  (l.map (fun kv => kv.2.amount)).sum

/-- The UTXO-selection loop of `create_tx`.  The Rust code sorts `utxos`
ascending by amount and repeatedly `pop()`s the tail (largest); here the
remaining candidates are passed largest-first (the reversed sorted list)
and taken from the head, which is the same traversal.  `fees` is always
`fee_rate.calculate_fee total_weight`, so it is recomputed from the
weight at each check instead of being threaded separately.
Returns `(selected_utxos, total_selected_value, total_weight)`, or `none`
when the candidates run out ("Not enough UTXOs"). -/
def selectUtxos (fee_rate : Feerate) (miw peg_out_amount dust : Nat) :
    List ((Nat × Nat) × SpendableUTXO) → Nat → Nat →
    List ((Nat × Nat) × SpendableUTXO) →
    Option (List ((Nat × Nat) × SpendableUTXO) × Nat × Nat)
  | [], total_selected_value, total_weight, selected =>
      if peg_out_amount + dust + fee_rate.calculate_fee total_weight ≤ total_selected_value then
        some (selected, total_selected_value, total_weight)
      else none
  | u :: rest, total_selected_value, total_weight, selected =>
      if peg_out_amount + dust + fee_rate.calculate_fee total_weight ≤ total_selected_value then
        some (selected, total_selected_value, total_weight)
      else
        selectUtxos fee_rate miw peg_out_amount dust rest
          (total_selected_value + u.2.amount) (total_weight + miw) (selected ++ [u])

/-- Ascending stable sort by UTXO amount (`utxos.sort_by_key(|(_, utxo)| utxo.amount)`). -/
def sortByAmount (utxos : List ((Nat × Nat) × SpendableUTXO)) :
    List ((Nat × Nat) × SpendableUTXO) :=
  utxos.insertionSort (fun a b => a.2.amount ≤ b.2.amount)

/-- `StatelessWallet::create_tx`. -/
def create_tx (cfg : WalletCfg) (peg_out_amount : Nat) (destination : Script)
    (utxos : List ((Nat × Nat) × SpendableUTXO)) (fee_rate : Feerate)
    (change_tweak : List Nat) : Option UnsignedTransaction :=
  let change_script := cfg.derive_script change_tweak
  match selectUtxos fee_rate (max_input_weight cfg) peg_out_amount change_script.dust_value
      (sortByAmount utxos).reverse 0 (base_weight destination change_script) [] with
  | none => none
  | some (selected_utxos, total_selected_value, total_weight) =>
      let fees := fee_rate.calculate_fee total_weight
      let change := total_selected_value - fees - peg_out_amount
      let output : List TxOut :=
        [ { value := peg_out_amount, script_pubkey := destination },
          { value := change, script_pubkey := change_script } ]
      let change_out : PsbtOutput :=
        { proprietary := [(proprietary_tweak_key, change_tweak)] }
      let transaction : Transaction :=
        { version := 2
          lock_time := 0
          input := selected_utxos.map (fun kv =>
            { previous_output := kv.1, sequence := 0xFFFFFFFF, witness := [] })
          output := output }
      some
        { psbt :=
            { unsigned_tx := transaction
              inputs := selected_utxos.map (fun kv =>
                { witness_utxo := some
                    { value := kv.2.amount
                      script_pubkey := cfg.derive_script kv.2.tweak }
                  proprietary := [(proprietary_tweak_key, kv.2.tweak)] })
              outputs := [{ proprietary := [] }, change_out] }
          signatures := []
          nonces := []
          change := change
          fees := { fee_rate := fee_rate, total_weight := total_weight } }

/-! ### Wallet facade: round-consensus reads, output validation/application -/

/-- `Wallet::current_round_consensus` (a plain DB read). -/
def current_round_consensus (st : WalletState) : Option RoundConsensus :=
  st.roundConsensus

/-- `Wallet::consensus_height`. -/
def consensus_height (st : WalletState) : Option Nat :=
  (current_round_consensus st).map (fun rc => rc.block_height)

/-- `Wallet::available_utxos` (prefix scan over the UTXO table). -/
def available_utxos (st : WalletState) : List ((Nat × Nat) × SpendableUTXO) :=
  st.utxos

/-- `Wallet::create_peg_out_tx`.  The outer `Option` is the
`current_round_consensus().unwrap()` panic: `none` means the process
panics because the `RoundConsensusKey` singleton is absent. -/
def create_peg_out_tx (cfg : WalletCfg) (st : WalletState) (peg_out : PegOut) :
    Option (Option UnsignedTransaction) :=
  match current_round_consensus st with
  | none => none
  | some rc =>
      some (create_tx cfg peg_out.amount peg_out.recipient.script_pubkey
        (available_utxos st) peg_out.fees.fee_rate rc.randomness_beacon)

/-- `Wallet::validate_output`.  `none` models the
`current_round_consensus().unwrap()` panic (reached only after the
network check passes, as in the source). -/
def validate_output (cfg : WalletCfg) (st : WalletState) (output : PegOut) :
    Option (Except WalletError Nat) :=
  if ¬ is_address_valid_for_network output.recipient cfg.network then
    some (Except.error (WalletError.WrongNetwork cfg.network output.recipient.network))
  else
    match current_round_consensus st with
    | none => none
    | some rc =>
        if output.fees.fee_rate.sats_per_kvb < rc.fee_rate.sats_per_kvb then
          some (Except.error (WalletError.PegOutFeeRate output.fees.fee_rate rc.fee_rate))
        else
          match create_peg_out_tx cfg st output with
          | none => none
          | some none => some (Except.error WalletError.NotEnoughSpendableUTXO)
          | some (some _) => some (Except.ok output.amount)

/-- `Wallet::apply_output`: validate, then delete the consumed UTXO rows,
insert the `UnsignedTransaction` row and the local `PegOutTxNonceCI`
nonces.  The returned state is unchanged on a validation error; `none` is
a panic. -/
def apply_output (cfg : WalletCfg) (st : WalletState) (output : PegOut) :
    Option (Except WalletError Nat × WalletState) :=
  match validate_output cfg st output with
  | none => none
  | some (Except.error e) => some (Except.error e, st)
  | some (Except.ok amount) =>
      match create_peg_out_tx cfg st output with
      | none => none
      | some none => none
      | some (some tx) =>
          let txid := cfg.txid_of tx.psbt.unsigned_tx
          let utxos' := tx.psbt.unsigned_tx.input.foldl
            (fun us i => eraseKV i.previous_output us) st.utxos
          let nonces := (List.range tx.psbt.inputs.length).map
            (fun i => cfg.gen_nonce cfg.peer_id (i, txid))
          some (Except.ok amount,
            { st with
              utxos := utxos'
              unsignedTxs := insertKV txid tx st.unsignedTxs
              nonceCI := insertKV txid nonces st.nonceCI })

/-- The `/block_height` API endpoint: `consensus_height().unwrap_or(0)`. -/
def block_height_endpoint (st : WalletState) : Nat :=
  (consensus_height st).getD 0

/-- The `/peg_out_fees` API endpoint; `none` is the
`current_round_consensus().unwrap()` panic. -/
def peg_out_fees_endpoint (cfg : WalletCfg) (st : WalletState)
    (address : Address) (sats : Nat) : Option (Option PegOutFees) :=
  match current_round_consensus st with
  | none => none
  | some rc =>
      some ((create_tx cfg sats address.script_pubkey (available_utxos st)
        rc.fee_rate rc.randomness_beacon).map (fun tx => tx.fees))

/-! ### Concrete fixtures used by witnesses and counterexamples -/

/-- A minimal concrete configuration (trivial external capabilities). -/
def cfg0 : WalletCfg :=
  { network := Network.regtest
    peer_id := 0
    threshold := 2
    default_fee := { sats_per_kvb := 1000 }
    derive_script := fun t => { bytesLen := 0, dust_value := 0, tag := t.length }
    max_satisfaction_weight := 0
    txid_of := fun _ => 0
    gen_nonce := fun _ _ => []
    sign_share := fun _ _ _ => 0
    verify_share := fun _ _ _ _ => true
    combine_verifies := fun _ _ => true
    combine_sig := fun _ _ => []
    get_block_hash := fun h => h
    get_block := fun _ => [] }

/-- A destination script. -/
def dest0 : Script := { bytesLen := 0, dust_value := 0, tag := 5 }

/-- A regtest recipient address paying to `dest0`. -/
def addr0 : Address :=
  { network := Network.regtest, address_type := none, script_pubkey := dest0 }

/-- The empty store (cold start: no round consensus yet). -/
def stEmpty : WalletState :=
  { roundConsensus := none, blockHashes := [], utxos := [], unsignedTxs := []
    pendingTxs := [], nonceCI := [], sigCI := [] }

/-- The transaction `create_tx cfg0 0 dest0 [] {sats_per_kvb := 0} [3]` builds. -/
def c1tx : UnsignedTransaction :=
  { psbt :=
      { unsigned_tx :=
          { version := 2, lock_time := 0, input := []
            output := [ { value := 0, script_pubkey := dest0 },
                        { value := 0, script_pubkey := cfg0.derive_script [3] } ] }
        inputs := []
        outputs := [ { proprietary := [] },
                     { proprietary := [(proprietary_tweak_key, [3])] } ] }
    signatures := [], nonces := [], change := 0
    fees := { fee_rate := { sats_per_kvb := 0 }, total_weight := 122 } }

/-! ### Round-consensus aggregation and chain follower -/

/-- `Wallet::process_randomness_contributions`: XOR-fold (bytewise) with
the all-zero accumulator; byte lists are XORed pointwise via `Nat.xor`. -/
def process_randomness_contributions (randomness : List (List Nat)) : List Nat :=
  randomness.foldl (fun lhs rhs => lhs.zipWith Nat.xor rhs) (List.replicate 32 0)

/-- `Wallet::process_fee_proposals`: sort ascending, take index `len / 2`;
`none` models the `assert!(!proposals.is_empty())` panic.  (The derived
`Ord` on `Feerate` orders by `sats_per_kvb`.) -/
def process_fee_proposals (proposals : List Feerate) : Option Feerate :=
  if proposals.isEmpty then none
  else
    (proposals.insertionSort (fun a b => a.sats_per_kvb ≤ b.sats_per_kvb))[proposals.length / 2]?

/-- `Wallet::recognize_change_utxo`: insert a `SpendableUTXO` for every
output of the pending tx paying the tweaked federation script. -/
def recognize_change_utxo (cfg : WalletCfg) (st : WalletState)
    (pending_tx : PendingTransaction) : WalletState :=
  let script_pk := cfg.derive_script pending_tx.tweak
  { st with
    utxos := (pending_tx.tx.output.enum.filter
        (fun io => io.2.script_pubkey == script_pk)).foldl
      (fun us io =>
        insertKV (cfg.txid_of pending_tx.tx, io.1)
          { tweak := pending_tx.tweak, amount := io.2.value } us)
      st.utxos }

/-- One height step of `Wallet::sync_up_to_consensus_height`: fetch the
block hash, scan the block for pending transactions when any exist, and
record the block hash as known. -/
def syncHeightStep (cfg : WalletCfg) (s : WalletState) (height : Nat) : WalletState :=
  let block_hash := cfg.get_block_hash height
  let pending := s.pendingTxs
  let s1 :=
    if pending.isEmpty then s
    else (cfg.get_block block_hash).foldl
      (fun s2 transaction =>
        match lookupKV (cfg.txid_of transaction) pending with
        | some pending_tx => recognize_change_utxo cfg s2 pending_tx
        | none => s2) s
  { s1 with blockHashes := s1.blockHashes ++ [block_hash] }

/-- `Wallet::sync_up_to_consensus_height`. -/
def sync_up_to_consensus_height (cfg : WalletCfg) (st : WalletState)
    (new_height : Nat) : WalletState :=
  let old_height := (consensus_height st).getD 0
  if new_height < old_height then st
  else if new_height = old_height then st
  else (List.range' (old_height + 1) (new_height - old_height)).foldl
    (syncHeightStep cfg) st

/-- `Wallet::process_block_height_proposals`: sort, take the median at
`len / 2`, require it to be `>=` the stored consensus height (else panic:
"the federation is broken"), then run the chain follower.  `none` models
either panic (empty proposals or height regression). -/
def process_block_height_proposals (cfg : WalletCfg) (st : WalletState)
    (proposals : List Nat) : Option (Nat × WalletState) :=
  if proposals.isEmpty then none
  else
    let sorted := proposals.insertionSort (· ≤ ·)
    let median_proposal := sorted.getD (proposals.length / 2) 0
    let ch := (consensus_height st).getD 0
    if median_proposal ≥ ch then
      some (median_proposal, sync_up_to_consensus_height cfg st median_proposal)
    else none

/-- `Wallet::save_peg_out_signatures`: push each incoming nonce/signature
item into the matching `UnsignedTransaction` row (items for unknown
txids are dropped with a warning). -/
def save_peg_out_signatures (st : WalletState)
    (nonces : List (Nat × PegOutNonceItem))
    (signatures : List (Nat × PegOutSignatureItem)) : WalletState :=
  let upd1 := nonces.foldl
    (fun txs pn => txs.map (fun kv =>
      if kv.1 = pn.2.txid then (kv.1, { kv.2 with nonces := kv.2.nonces ++ [pn] }) else kv))
    st.unsignedTxs
  let upd2 := signatures.foldl
    (fun txs ps => txs.map (fun kv =>
      if kv.1 = ps.2.txid then (kv.1, { kv.2 with signatures := kv.2.signatures ++ [ps] }) else kv))
    upd1
  { st with unsignedTxs := upd2 }

/-- `Wallet::begin_consensus_epoch`: store incoming nonce/signature items,
panic (`none`) when no round items were submitted, aggregate fee / height /
randomness and overwrite `RoundConsensusKey`. -/
def begin_consensus_epoch (cfg : WalletCfg) (st : WalletState)
    (consensus_items : List (Nat × WalletConsensusItem)) : Option WalletState :=
  let peg_out_nonce := consensus_items.filterMap (fun pi =>
    match pi.2 with
    | WalletConsensusItem.pegOutNonce n => some (pi.1, n)
    | _ => none)
  let peg_out_signatures := consensus_items.filterMap (fun pi =>
    match pi.2 with
    | WalletConsensusItem.pegOutSignature s => some (pi.1, s)
    | _ => none)
  let round_consensus := consensus_items.filterMap (fun pi =>
    match pi.2 with
    | WalletConsensusItem.roundConsensus rc => some (pi.1, rc)
    | _ => none)
  let st1 := save_peg_out_signatures st peg_out_nonce peg_out_signatures
  if round_consensus.isEmpty then none
  else
    match process_fee_proposals (round_consensus.map (fun pr => pr.2.fee_rate)) with
    | none => none
    | some fee_rate =>
        match process_block_height_proposals cfg st1
            (round_consensus.map (fun pr => pr.2.block_height)) with
        | none => none
        | some (block_height, st2) =>
            some { st2 with
              roundConsensus := some
                { block_height := block_height
                  fee_rate := fee_rate
                  randomness_beacon := process_randomness_contributions
                    (round_consensus.map (fun pr => pr.2.randomness)) } }

/-- `fn broadcast_pending_tx`: read every pending transaction and submit
it to the chain; it performs no store writes, so it is the list of
submitted transactions. -/
def broadcast_pending_tx (st : WalletState) : List Transaction :=
  st.pendingTxs.map (fun kv => kv.2.tx)

/-! ### Peg-out FROST coordinator (`Wallet::end_consensus_epoch`) -/

/-- Collect an association list into a `BTreeMap` (ascending unique keys,
later entries overwriting earlier ones), as the Rust
`collect::<BTreeMap<_, _>>()` does. -/
def btreeCollect {α : Type} (l : List (Nat × α)) : List (Nat × α) :=
  ((l.map Prod.fst).eraseDups.insertionSort (· ≤ ·)).filterMap
    (fun k => (l.reverse.lookup k).map (fun v => (k, v)))

/-- The participant set of the FROST sign session started from a tx's
nonce map: the contributing peers (deduplicated, ascending). -/
def sessionParticipants (u : UnsignedTransaction) : List Nat :=
  (btreeCollect u.nonces).map Prod.fst

/-- The data `create_sign_session` unwraps for input `i`: the input's
proprietary tweak, every input's `witness_utxo`, and a first-round nonce
at index `i` in every nonce item.  When this is `false` the source
panics (`expect` / vector indexing). -/
def signSessionWf (u : UnsignedTransaction) (i : Nat) : Bool :=
  (match u.psbt.inputs[i]? with
   | some inp => (propGet inp.proprietary).isSome
   | none => false)
  && u.psbt.inputs.all (fun inp => inp.witness_utxo.isSome)
  && u.nonces.all (fun pn => decide (i < pn.2.nonces.length))

/-- Whether `peer` attached a share for input `i` of `u` that passes
`verify_signature_share` (first matching signature item, share at index
`i`). -/
def providedValidShare (verify : UnsignedTransaction → Nat → Nat → FrostSigShare → Bool)
    (u : UnsignedTransaction) (i peer : Nat) : Bool :=
  match u.signatures.find? (fun ps => ps.1 == peer) with
  | none => false
  | some ps =>
      match ps.2.signatures[i]? with
      | none => false
      | some share => verify u i peer share

/-- Signature-round fault detection for one stored tx: for every input,
participants of the sign session who were promised (in `consensus_peers`)
but did not provide a valid share.  `none` is a `create_sign_session`
panic on a malformed row. -/
def sigRoundDropsTx (verify : UnsignedTransaction → Nat → Nat → FrostSigShare → Bool)
    (peers : List Nat) (u : UnsignedTransaction) : Option (List Nat) :=
  ((List.range u.psbt.inputs.length).mapM (fun i =>
    if signSessionWf u i then
      let parts := sessionParticipants u
      let promised := parts.filter (fun p => peers.contains p)
      let provided := parts.filter (fun p => providedValidShare verify u i p)
      some (promised.filter (fun p => !(provided.contains p)))
    else none)).map List.flatten

/-- Nonce-round fault detection: for every tx awaiting signatures, every
consensus peer that did not contribute a nonce. -/
def nonceRoundDrops (peers : List Nat)
    (txsN : List (Nat × UnsignedTransaction)) : List Nat :=
  txsN.flatMap (fun kv =>
    peers.filter (fun p => !((kv.2.nonces.map Prod.fst).contains p)))

/-- The full `drop_peers` computation of `end_consensus_epoch` (both fault
loops); it reads only the stored rows, the consensus peer set and the
shared FROST verification function — never the local peer id. -/
def computeDropPeers (verify : UnsignedTransaction → Nat → Nat → FrostSigShare → Bool)
    (peers : List Nat) (txsN txsS : List (Nat × UnsignedTransaction)) :
    Option (List Nat) :=
  (txsS.mapM (fun kv => sigRoundDropsTx verify peers kv.2)).map
    (fun ls => nonceRoundDrops peers txsN ++ ls.flatten)

/-- The nonce set of a row after removing contributors in `drop_peers` and
collecting into a `BTreeMap` keyed by peer. -/
def filteredNonces (drop : List Nat) (u : UnsignedTransaction) :
    List (Nat × PegOutNonceItem) :=
  btreeCollect (u.nonces.filter (fun pn => !(drop.contains pn.1)))

/-- The local signature shares produced in the advance step: one per input
whose sign session includes this peer (shares for inputs where the local
peer is not a participant are simply not pushed). -/
def advanceShares (cfg : WalletCfg) (txid : Nat) (u : UnsignedTransaction) :
    List FrostSigShare :=
  (List.range u.psbt.inputs.length).filterMap (fun i =>
    if (sessionParticipants u).contains cfg.peer_id then
      some (cfg.sign_share cfg.peer_id txid i)
    else none)

/-- The advance (nonces → signature shares) decision for one row:
`some (some (row', shares))` updates the store, `some none` leaves the row
("not enough nonces"), `none` is a `create_sign_session` panic. -/
def advanceResult (cfg : WalletCfg) (drop : List Nat) (txid : Nat)
    (u : UnsignedTransaction) :
    Option (Option (UnsignedTransaction × List FrostSigShare)) :=
  let u' := { u with nonces := filteredNonces drop u }
  if cfg.threshold ≤ u'.nonces.length then
    if (List.range u'.psbt.inputs.length).all (fun i => signSessionWf u' i) then
      some (some (u', advanceShares cfg txid u'))
    else none
  else some none

/-- The advance loop over `txs_with_nonces` (rows also holding signatures
are skipped; the Rust partition makes that impossible, but the check is in
the source). -/
def advanceLoop (cfg : WalletCfg) (drop : List Nat) (skipKeys : List Nat) :
    List (Nat × UnsignedTransaction) → WalletState → Option WalletState
  | [], s => some s
  | kv :: rest, s =>
      if skipKeys.contains kv.1 then advanceLoop cfg drop skipKeys rest s
      else
        match advanceResult cfg drop kv.1 kv.2 with
        | none => none
        | some none => advanceLoop cfg drop skipKeys rest s
        | some (some (u', shares)) =>
            advanceLoop cfg drop skipKeys rest
              { s with
                unsignedTxs := insertKV kv.1 u' s.unsignedTxs
                nonceCI := eraseKV kv.1 s.nonceCI
                sigCI := insertKV kv.1 shares s.sigCI }

/-- Gather, for input `i`, every sign-session participant's share at index
`i` (`collect::<Option<Vec<_>>>()`). -/
def inputShares (u : UnsignedTransaction) (i : Nat) : Option (List FrostSigShare) :=
  (sessionParticipants u).mapM (fun peer =>
    match u.signatures.find? (fun ps => ps.1 == peer) with
    | none => none
    | some ps => ps.2.signatures[i]?)

/-- Per-input finalization outcome: `some (some witness)` combined and
verified, `some none` missing shares (`success = false`), `none` a panic
(malformed session data or failed `assert!` on the combined signature). -/
def finalizeInputResult (cfg : WalletCfg) (u : UnsignedTransaction) (i : Nat) :
    Option (Option (List Nat)) :=
  if signSessionWf u i then
    match inputShares u i with
    | some _ =>
        if cfg.combine_verifies u i then some (some (cfg.combine_sig u i)) else none
    | none => some none
  else none

/-- First proprietary tweak found among the PSBT outputs (the change
tweak), as extracted at finalization. -/
def psbtChangeTweak (u : UnsignedTransaction) : Option (List Nat) :=
  (u.psbt.outputs.filterMap (fun o => propGet o.proprietary)).head?

/-- Finalization of one row holding signature shares: if every input has a
full share vector, push the combined signatures as witnesses, insert the
`PendingTransaction` and delete the signature staging row and the unsigned
row; otherwise leave the state unchanged.  `none` is a panic. -/
def finalizeStep (cfg : WalletCfg) (txid : Nat) (u : UnsignedTransaction)
    (s : WalletState) : Option WalletState :=
  match (List.range u.psbt.unsigned_tx.input.length).mapM
      (fun i => finalizeInputResult cfg u i) with
  | none => none
  | some results =>
      if results.all (fun r => r.isSome) then
        match psbtChangeTweak u with
        | none => none
        | some change_tweak =>
            let pending_tx :=
              { u.psbt.unsigned_tx with
                input := (u.psbt.unsigned_tx.input.zip results).map
                  (fun p => { p.1 with witness := p.1.witness ++ [p.2.getD []] }) }
            some { s with
              pendingTxs := insertKV txid
                { tx := pending_tx, tweak := change_tweak, change := u.change }
                s.pendingTxs
              sigCI := eraseKV txid s.sigCI
              unsignedTxs := eraseKV txid s.unsignedTxs }
      else some s

/-- The finalize loop over `txs_with_signature_shares`. -/
def finalizeLoop (cfg : WalletCfg) :
    List (Nat × UnsignedTransaction) → WalletState → Option WalletState
  | [], s => some s
  | kv :: rest, s =>
      match finalizeStep cfg kv.1 kv.2 s with
      | none => none
      | some s' => finalizeLoop cfg rest s'

/-- The rows with nonces and no signatures (`txs_with_nonces`). -/
def txsWithNonces (st : WalletState) : List (Nat × UnsignedTransaction) :=
  st.unsignedTxs.filter (fun kv => !kv.2.nonces.isEmpty && kv.2.signatures.isEmpty)

/-- The rows holding signature shares (`txs_with_signature_shares`). -/
def txsWithSignatureShares (st : WalletState) : List (Nat × UnsignedTransaction) :=
  st.unsignedTxs.filter (fun kv => !kv.2.signatures.isEmpty)

/-- `Wallet::end_consensus_epoch`: fault detection (building `drop_peers`),
the advance loop, the finalize loop; returns the updated store and the
drop list.  `none` models a panic, after which nothing commits. -/
def end_consensus_epoch (cfg : WalletCfg) (peers : List Nat) (st : WalletState) :
    Option (WalletState × List Nat) :=
  let txsN := txsWithNonces st
  let txsS := txsWithSignatureShares st
  match computeDropPeers cfg.verify_share peers txsN txsS with
  | none => none
  | some drop =>
      match advanceLoop cfg drop (txsS.map Prod.fst) txsN st with
      | none => none
      | some st1 =>
          match finalizeLoop cfg txsS st1 with
          | none => none
          | some st2 => some (st2, drop)

/-- Round consensus at fee rate 1000 with beacon `[3]`. -/
def rc8 : RoundConsensus :=
  { block_height := 0, fee_rate := { sats_per_kvb := 1000 }, randomness_beacon := [3] }

/-- Store holding `rc8` and no UTXOs. -/
def st8 : WalletState := { stEmpty with roundConsensus := some rc8 }

/-- A peg-out of 1 sat at the consensus fee rate (insufficient UTXOs). -/
def out8 : PegOut :=
  { recipient := addr0, amount := 1
    fees := { fee_rate := { sats_per_kvb := 1000 }, total_weight := 0 } }

/-- Round consensus with fee rate 1800 (spec scenario S3). -/
def rc3 : RoundConsensus :=
  { block_height := 0, fee_rate := { sats_per_kvb := 1800 }, randomness_beacon := [] }

/-- Store with consensus fee rate 1800 (spec scenario S3). -/
def st3 : WalletState := { stEmpty with roundConsensus := some rc3 }

/-- A peg-out bidding fee rate 1500, below the 1800 consensus floor. -/
def out3 : PegOut :=
  { recipient := addr0, amount := 1
    fees := { fee_rate := { sats_per_kvb := 1500 }, total_weight := 0 } }

/-- A pending peg-out transaction paying change to the tweaked script for `[7]`. -/
def pend5 : PendingTransaction :=
  { tx := { version := 2, lock_time := 0, input := []
            output := [ { value := 1000, script_pubkey := cfg0.derive_script [7] } ] }
    tweak := [7]
    change := 1000 }

/-- Store holding `pend5` under txid 0. -/
def st5 : WalletState := { stEmpty with pendingTxs := [(0, pend5)] }

/-- Configuration whose chain serves a block containing `pend5.tx`. -/
def cfg5 : WalletCfg := { cfg0 with get_block := fun _ => [pend5.tx] }

/-- An unsigned peg-out row whose nonce list holds the same staged item
from peer 1 twice (the peer re-emits its `PegOutTxNonceCI` every epoch
until it is consumed). -/
def u2 : UnsignedTransaction :=
  { psbt :=
      { unsigned_tx := { version := 2, lock_time := 0, input := [], output := [] }
        inputs := [], outputs := [] }
    nonces := [(1, { txid := 7, nonces := [] }), (1, { txid := 7, nonces := [] })]
    signatures := []
    change := 0
    fees := { fee_rate := { sats_per_kvb := 0 }, total_weight := 0 } }

/-- Store holding `u2` under txid 7. -/
def st2c : WalletState := { stEmpty with unsignedTxs := [(7, u2)] }

/-- An unsigned peg-out row with nonces from the two distinct peers 1, 2. -/
def uW : UnsignedTransaction :=
  { psbt :=
      { unsigned_tx := { version := 2, lock_time := 0, input := [], output := [] }
        inputs := [], outputs := [] }
    nonces := [(1, { txid := 7, nonces := [] }), (2, { txid := 7, nonces := [] })]
    signatures := []
    change := 0
    fees := { fee_rate := { sats_per_kvb := 0 }, total_weight := 0 } }

/-- Store holding `uW` under txid 7. -/
def stW : WalletState := { stEmpty with unsignedTxs := [(7, uW)] }

/-- `stW` after the epoch advances the row into the signing phase. -/
def stWres : WalletState := { stW with sigCI := [(7, [])] }

/-! ### Helper lemmas -/

theorem lookupKV_erase_self {κ α : Type} [DecidableEq κ] (k : κ) (l : List (κ × α)) :
    lookupKV k (eraseKV k l) = none := by
  induction l with
  | nil => rfl
  | cons p rest ih =>
      by_cases h : p.1 = k <;> simp [eraseKV, lookupKV, h, ih]

theorem lookupKV_erase_other {κ α : Type} [DecidableEq κ] {k k' : κ} (h : k' ≠ k)
    (l : List (κ × α)) :
    lookupKV k' (eraseKV k l) = lookupKV k' l := by
  have hkk : ¬(k = k') := fun hh => h hh.symm
  induction l with
  | nil => rfl
  | cons p rest ih =>
      by_cases hp : p.1 = k
      · simp [eraseKV, lookupKV, hp, hkk, ih]
      · by_cases hp' : p.1 = k' <;> simp [eraseKV, lookupKV, hp, hp', h, ih]

theorem lookupKV_append {κ α : Type} [DecidableEq κ] (k : κ) (l₁ l₂ : List (κ × α))
    (h : lookupKV k l₁ = none) :
    lookupKV k (l₁ ++ l₂) = lookupKV k l₂ := by
  induction l₁ with
  | nil => rfl
  | cons p rest ih =>
      by_cases hp : p.1 = k
      · simp [lookupKV, hp] at h
      · simp only [lookupKV, hp, if_false] at h
        simp [lookupKV, hp, ih h]

theorem lookupKV_insert_self {κ α : Type} [DecidableEq κ] (k : κ) (v : α) (l : List (κ × α)) :
    lookupKV k (insertKV k v l) = some v := by
  rw [insertKV, lookupKV_append k _ _ (lookupKV_erase_self k l)]
  simp [lookupKV]

theorem lookupKV_insert_other {κ α : Type} [DecidableEq κ] {k k' : κ} (h : k' ≠ k)
    (v : α) (l : List (κ × α)) :
    lookupKV k' (insertKV k v l) = lookupKV k' l := by
  rw [insertKV]
  have hkk : ¬(k = k') := fun hh => h hh.symm
  induction l with
  | nil => simp [eraseKV, lookupKV, hkk]
  | cons p rest ih =>
      by_cases hp : p.1 = k
      · simp [eraseKV, lookupKV, hp, hkk, ih]
      · by_cases hp' : p.1 = k' <;> simp [eraseKV, lookupKV, hp, hp', h, ih]

theorem lookupKV_mem {κ α : Type} [DecidableEq κ] {k : κ} {v : α} :
    ∀ {l : List (κ × α)}, lookupKV k l = some v → (k, v) ∈ l := by
  intro l
  induction l with
  | nil => intro h; simp [lookupKV] at h
  | cons p rest ih =>
      intro h
      by_cases hp : p.1 = k
      · simp [lookupKV, hp] at h
        subst hp; subst h
        exact List.mem_cons_self _ _
      · simp [lookupKV, hp] at h
        exact List.mem_cons_of_mem _ (ih h)

theorem mem_unique_of_nodup_keys {κ α : Type} [DecidableEq κ] {k : κ} {v w : α} :
    ∀ {l : List (κ × α)}, (l.map Prod.fst).Nodup →
      (k, v) ∈ l → (k, w) ∈ l → v = w := by
  intro l
  induction l with
  | nil => intro _ hv; cases hv
  | cons p rest ih =>
      intro hnd hv hw
      obtain ⟨pk, pv⟩ := p
      simp only [List.map_cons, List.nodup_cons] at hnd
      rcases List.mem_cons.mp hv with hv1 | hv2 <;>
        rcases List.mem_cons.mp hw with hw1 | hw2
      · rw [Prod.mk.injEq] at hv1 hw1
        rw [hv1.2, hw1.2]
      · exfalso
        rw [Prod.mk.injEq] at hv1
        apply hnd.1
        rw [← hv1.1]
        exact List.mem_map_of_mem Prod.fst hw2
      · exfalso
        rw [Prod.mk.injEq] at hw1
        apply hnd.1
        rw [← hw1.1]
        exact List.mem_map_of_mem Prod.fst hv2
      · exact ih hnd.2 hv2 hw2

theorem selectUtxos_sound (fee_rate : Feerate) (miw amt dust : Nat) :
    ∀ (rem : List ((Nat × Nat) × SpendableUTXO)) (tsv tw : Nat)
      (acc sel : List ((Nat × Nat) × SpendableUTXO)) (v wt : Nat),
      selectUtxos fee_rate miw amt dust rem tsv tw acc = some (sel, v, wt) →
      sumAmounts acc = tsv →
      sumAmounts sel = v ∧ amt + dust + fee_rate.calculate_fee wt ≤ v := by
  intro rem
  induction rem with
  | nil =>
      intro tsv tw acc sel v wt hrun hacc
      by_cases hc : amt + dust + fee_rate.calculate_fee tw ≤ tsv
      · simp only [selectUtxos, hc, if_true, Option.some.injEq] at hrun
        cases hrun
        exact ⟨hacc, hc⟩
      · simp [selectUtxos, hc] at hrun
  | cons u rest ih =>
      intro tsv tw acc sel v wt hrun hacc
      by_cases hc : amt + dust + fee_rate.calculate_fee tw ≤ tsv
      · simp only [selectUtxos, hc, if_true, Option.some.injEq] at hrun
        cases hrun
        exact ⟨hacc, hc⟩
      · simp only [selectUtxos, hc, if_false] at hrun
        refine ih _ _ _ _ _ _ hrun ?_
        simp [sumAmounts] at hacc ⊢
        omega

theorem selectUtxos_none_iff (fee_rate : Feerate) (miw amt dust : Nat) :
    ∀ (rem : List ((Nat × Nat) × SpendableUTXO)) (tsv tw : Nat)
      (acc : List ((Nat × Nat) × SpendableUTXO)),
      (selectUtxos fee_rate miw amt dust rem tsv tw acc = none ↔
        ∀ k ≤ rem.length,
          tsv + sumAmounts (rem.take k) <
            amt + dust + fee_rate.calculate_fee (tw + k * miw)) := by
  intro rem
  induction rem with
  | nil =>
      intro tsv tw acc
      by_cases hc : amt + dust + fee_rate.calculate_fee tw ≤ tsv
      · simp only [selectUtxos, hc, if_true]
        constructor
        · intro h; cases h
        · intro h
          exfalso
          have := h 0 (Nat.le_refl 0)
          simp [sumAmounts] at this
          omega
      · simp only [selectUtxos, hc, if_false]
        constructor
        · intro _ k hk
          have hk0 : k = 0 := Nat.le_zero.mp hk
          subst hk0
          simp [sumAmounts]
          omega
        · intro _; trivial
  | cons u rest ih =>
      intro tsv tw acc
      by_cases hc : amt + dust + fee_rate.calculate_fee tw ≤ tsv
      · simp only [selectUtxos, hc, if_true]
        constructor
        · intro h; cases h
        · intro h
          exfalso
          have := h 0 (Nat.zero_le _)
          simp [sumAmounts] at this
          omega
      · simp only [selectUtxos, hc, if_false]
        rw [ih]
        constructor
        · intro h k hk
          match k with
          | 0 =>
              simp [sumAmounts]
              omega
          | Nat.succ j =>
              have hj : j ≤ rest.length := by simpa using hk
              have := h j hj
              simp only [List.take_succ_cons, sumAmounts, List.map_cons, List.sum_cons,
                Nat.succ_eq_add_one] at this ⊢
              have harith : tw + miw + j * miw = tw + (j + 1) * miw := by ring
              rw [harith] at this
              omega
        · intro h j hj
          have := h (j + 1) (by simpa using Nat.succ_le_succ hj)
          simp only [List.take_succ_cons, sumAmounts, List.map_cons, List.sum_cons] at this ⊢
          have harith : tw + miw + j * miw = tw + (j + 1) * miw := by ring
          rw [harith]
          omega

theorem witnessValuesSum (cfg : WalletCfg) (sel : List ((Nat × Nat) × SpendableUTXO)) :
    ((sel.map (fun kv =>
        ({ witness_utxo :=
             some { value := kv.2.amount, script_pubkey := cfg.derive_script kv.2.tweak },
           proprietary := [(proprietary_tweak_key, kv.2.tweak)] } : PsbtInput))).map
      (fun inp => ((inp.witness_utxo.map TxOut.value).getD 0))).sum
    = sumAmounts sel := by
  induction sel with
  | nil => rfl
  | cons kv rest ih => simp [sumAmounts] at ih ⊢; omega

/-! ### Claim theorems -/

/-- C1: whenever `StatelessWallet::create_tx` returns `Some(tx)`, the sum
of the selected UTXO amounts (the PSBT inputs' `witness_utxo` values)
equals `peg_out_amount + fees + change` exactly with
`fees = fee_rate.calculate_fee tx.fees.total_weight`; output 0 pays
`peg_out_amount` to the destination script, output 1 pays the change to
the tweaked change script, and PSBT output 1 carries the proprietary
`minimint` key mapped to `change_tweak`. -/
theorem create_tx_accounting (cfg : WalletCfg) (peg_out_amount : Nat) (destination : Script)
    (utxos : List ((Nat × Nat) × SpendableUTXO)) (fee_rate : Feerate) (change_tweak : List Nat)
    (tx : UnsignedTransaction)
    (h : create_tx cfg peg_out_amount destination utxos fee_rate change_tweak = some tx) :
    (tx.psbt.inputs.map (fun inp => ((inp.witness_utxo.map TxOut.value).getD 0))).sum
        = peg_out_amount + fee_rate.calculate_fee tx.fees.total_weight + tx.change
    ∧ tx.fees.fee_rate = fee_rate
    ∧ tx.psbt.unsigned_tx.output[0]? =
        some { value := peg_out_amount, script_pubkey := destination }
    ∧ tx.psbt.unsigned_tx.output[1]? =
        some { value := tx.change, script_pubkey := cfg.derive_script change_tweak }
    ∧ (tx.psbt.outputs[1]?).map (fun o => propGet o.proprietary) = some (some change_tweak) := by
  simp only [create_tx] at h
  cases hsel : selectUtxos fee_rate (max_input_weight cfg) peg_out_amount
      (cfg.derive_script change_tweak).dust_value (sortByAmount utxos).reverse 0
      (base_weight destination (cfg.derive_script change_tweak)) [] with
  | none => rw [hsel] at h; cases h
  | some res =>
      obtain ⟨sel, tsv, tw⟩ := res
      rw [hsel] at h
      have hsound := selectUtxos_sound fee_rate (max_input_weight cfg) peg_out_amount
        (cfg.derive_script change_tweak).dust_value _ _ _ _ _ _ _ hsel rfl
      simp only [Option.some.injEq] at h
      subst h
      refine ⟨?_, rfl, rfl, rfl, ?_⟩
      · have hsum : sumAmounts sel = tsv := hsound.1
        have hge := hsound.2
        simp only
        rw [witnessValuesSum cfg sel, hsum]
        omega
      · rfl

/-- C1 witness: the accounting identity at a concrete input. -/
theorem create_tx_accounting_witness :
    (c1tx.psbt.inputs.map (fun inp => ((inp.witness_utxo.map TxOut.value).getD 0))).sum
      = 0 + Feerate.calculate_fee { sats_per_kvb := 0 } c1tx.fees.total_weight + c1tx.change :=
  (create_tx_accounting cfg0 0 dest0 [] { sats_per_kvb := 0 } [3] c1tx (by decide)).1

/-- C10: whenever `create_tx` returns `Some(tx)`, the change is at least
the change script's dust value (the dust slack in the selection loop's
exit condition prevents the change subtraction from underflowing), and
output 1 carries exactly that change. -/
theorem create_tx_change_not_dust (cfg : WalletCfg) (peg_out_amount : Nat) (destination : Script)
    (utxos : List ((Nat × Nat) × SpendableUTXO)) (fee_rate : Feerate) (change_tweak : List Nat)
    (tx : UnsignedTransaction)
    (h : create_tx cfg peg_out_amount destination utxos fee_rate change_tweak = some tx) :
    (cfg.derive_script change_tweak).dust_value ≤ tx.change
    ∧ tx.psbt.unsigned_tx.output[1]? =
        some { value := tx.change, script_pubkey := cfg.derive_script change_tweak } := by
  simp only [create_tx] at h
  cases hsel : selectUtxos fee_rate (max_input_weight cfg) peg_out_amount
      (cfg.derive_script change_tweak).dust_value (sortByAmount utxos).reverse 0
      (base_weight destination (cfg.derive_script change_tweak)) [] with
  | none => rw [hsel] at h; cases h
  | some res =>
      obtain ⟨sel, tsv, tw⟩ := res
      rw [hsel] at h
      have hsound := selectUtxos_sound fee_rate (max_input_weight cfg) peg_out_amount
        (cfg.derive_script change_tweak).dust_value _ _ _ _ _ _ _ hsel rfl
      simp only [Option.some.injEq] at h
      subst h
      refine ⟨?_, rfl⟩
      have hge := hsound.2
      simp only
      omega

/-- C10 witness: the dust lower bound at a concrete input. -/
theorem create_tx_change_not_dust_witness :
    (cfg0.derive_script [3]).dust_value ≤ c1tx.change :=
  (create_tx_change_not_dust cfg0 0 dest0 [] { sats_per_kvb := 0 } [3] c1tx (by decide)).1

/-- C8: `create_tx` returns `None` exactly when the greedy largest-first
selection exhausts the UTXO list before
`selected >= amount + dust + fees` holds at any step (with fees recomputed
for the weight of `k` selected inputs); and `validate_output` maps that
`None` to `NotEnoughSpendableUTXO`. -/
theorem create_tx_none_iff (cfg : WalletCfg) (peg_out_amount : Nat) (destination : Script)
    (utxos : List ((Nat × Nat) × SpendableUTXO)) (fee_rate : Feerate) (change_tweak : List Nat) :
    (create_tx cfg peg_out_amount destination utxos fee_rate change_tweak = none ↔
      ∀ k ≤ utxos.length,
        sumAmounts (((sortByAmount utxos).reverse).take k) <
          peg_out_amount + (cfg.derive_script change_tweak).dust_value
            + fee_rate.calculate_fee
                (base_weight destination (cfg.derive_script change_tweak)
                  + k * max_input_weight cfg))
    ∧ (∀ (st : WalletState) (output : PegOut) (rc : RoundConsensus),
        st.roundConsensus = some rc →
        is_address_valid_for_network output.recipient cfg.network = true →
        rc.fee_rate.sats_per_kvb ≤ output.fees.fee_rate.sats_per_kvb →
        create_tx cfg output.amount output.recipient.script_pubkey st.utxos
          output.fees.fee_rate rc.randomness_beacon = none →
        validate_output cfg st output =
          some (Except.error WalletError.NotEnoughSpendableUTXO)) := by
  constructor
  · have hstep : (create_tx cfg peg_out_amount destination utxos fee_rate change_tweak = none)
        ↔ (selectUtxos fee_rate (max_input_weight cfg) peg_out_amount
            (cfg.derive_script change_tweak).dust_value (sortByAmount utxos).reverse 0
            (base_weight destination (cfg.derive_script change_tweak)) [] = none) := by
      simp only [create_tx]
      cases hsel : selectUtxos fee_rate (max_input_weight cfg) peg_out_amount
          (cfg.derive_script change_tweak).dust_value (sortByAmount utxos).reverse 0
          (base_weight destination (cfg.derive_script change_tweak)) [] with
      | none => simp
      | some res => obtain ⟨a, b, c⟩ := res; simp
    rw [hstep, selectUtxos_none_iff]
    have hlen : ((sortByAmount utxos).reverse).length = utxos.length := by
      simp [sortByAmount, List.length_insertionSort]
    rw [hlen]
    simp only [Nat.zero_add]
  · intro st output rc h1 h2 h3 h4
    have h3' : ¬ output.fees.fee_rate.sats_per_kvb < rc.fee_rate.sats_per_kvb :=
      Nat.not_lt.mpr h3
    simp [validate_output, create_peg_out_tx, current_round_consensus, available_utxos,
      h1, h2, h3', h4]

/-- C8 witness: with an empty UTXO set the builder returns `None` and
`validate_output` reports `NotEnoughSpendableUTXO`. -/
theorem create_tx_none_iff_witness :
    validate_output cfg0 st8 out8 = some (Except.error WalletError.NotEnoughSpendableUTXO) :=
  (create_tx_none_iff cfg0 0 dest0 [] { sats_per_kvb := 0 } []).2 st8 out8 rc8
    (by decide) (by decide) (by decide) (by decide)

/-- C7: `apply_output` is atomic on error: whenever validation fails with
an error, `apply_output` returns exactly that error and the store is
untouched (no UTXO deletion, no `UnsignedTransaction` insertion, no
`PegOutTxNonceCI` insertion). -/
theorem apply_output_error_no_mutation (cfg : WalletCfg) (st : WalletState) (output : PegOut)
    (e : WalletError) (h : validate_output cfg st output = some (Except.error e)) :
    apply_output cfg st output = some (Except.error e, st) := by
  simp only [apply_output, h]

/-- C7 witness: spec scenario S3 (consensus fee 1800, bid 1500). -/
theorem apply_output_error_no_mutation_witness :
    apply_output cfg0 st3 out3 =
      some (Except.error
        (WalletError.PegOutFeeRate { sats_per_kvb := 1500 } { sats_per_kvb := 1800 }), st3) :=
  apply_output_error_no_mutation cfg0 st3 out3
    (WalletError.PegOutFeeRate { sats_per_kvb := 1500 } { sats_per_kvb := 1800 }) (by decide)

/-- C4 counterexample: executing before any round consensus has been
stored, `validate_output` (on a peg-out whose network is valid, so the
singleton read is reached), `create_peg_out_tx` and the `/peg_out_fees`
endpoint all hit `current_round_consensus().unwrap()` and panic (`none`),
contradicting the claim that every reader of `RoundConsensusKey`
tolerates its absence. -/
theorem round_consensus_reads_panic_counterexample :
    is_address_valid_for_network out3.recipient cfg0.network = true
    ∧ validate_output cfg0 stEmpty out3 = none
    ∧ create_peg_out_tx cfg0 stEmpty out3 = none
    ∧ peg_out_fees_endpoint cfg0 stEmpty addr0 1 = none := by
  decide

/-- C4 amended: before any round consensus is stored, only
`consensus_height` and its `unwrap_or(0)` callers (the `/block_height`
endpoint) tolerate the absence; `validate_output` (when the network check
passes), `create_peg_out_tx` and `/peg_out_fees` unwrap the singleton and
panic. -/
theorem round_consensus_absent_behavior (cfg : WalletCfg) (st : WalletState)
    (h : st.roundConsensus = none) :
    consensus_height st = none
    ∧ block_height_endpoint st = 0
    ∧ (∀ output, is_address_valid_for_network output.recipient cfg.network = true →
        validate_output cfg st output = none)
    ∧ (∀ output, create_peg_out_tx cfg st output = none)
    ∧ (∀ a s, peg_out_fees_endpoint cfg st a s = none) := by
  refine ⟨?_, ?_, ?_, ?_, ?_⟩
  · simp [consensus_height, current_round_consensus, h]
  · simp [block_height_endpoint, consensus_height, current_round_consensus, h]
  · intro output hv
    simp [validate_output, current_round_consensus, h, hv]
  · intro output
    simp [create_peg_out_tx, current_round_consensus, h]
  · intro a s
    simp [peg_out_fees_endpoint, current_round_consensus, h]

/-- C4 amended witness: the tolerated reads at a concrete empty store. -/
theorem round_consensus_absent_behavior_witness :
    consensus_height stEmpty = none ∧ block_height_endpoint stEmpty = 0 :=
  ⟨(round_consensus_absent_behavior cfg0 stEmpty rfl).1,
   (round_consensus_absent_behavior cfg0 stEmpty rfl).2.1⟩

/-- C9: for a non-empty proposal vector, `process_fee_proposals` returns
the element at index `len / 2` of the vector sorted ascending (a member of
the proposals); for the empty vector it panics. -/
theorem process_fee_proposals_median (v : List Feerate) (hv : v ≠ []) :
    process_fee_proposals v =
      some ((v.insertionSort (fun a b => a.sats_per_kvb ≤ b.sats_per_kvb)).getD
        (v.length / 2) { sats_per_kvb := 0 })
    ∧ (∀ r, process_fee_proposals v = some r → r ∈ v)
    ∧ process_fee_proposals [] = none := by
  have hpos : 0 < v.length := List.length_pos.mpr hv
  have hidx : v.length / 2 < v.length := Nat.div_lt_self hpos (by norm_num)
  have hlen : (v.insertionSort (fun a b => a.sats_per_kvb ≤ b.sats_per_kvb)).length
      = v.length := List.length_insertionSort _ _
  have hempty : v.isEmpty = false := by
    cases v with
    | nil => exact absurd rfl hv
    | cons a l => rfl
  refine ⟨?_, ?_, rfl⟩
  · simp only [process_fee_proposals, hempty, Bool.false_eq_true, if_false]
    rw [List.getElem?_eq_getElem (by omega), List.getD_eq_getElem _ _ (by omega)]
  · intro r hr
    simp only [process_fee_proposals, hempty, Bool.false_eq_true, if_false] at hr
    have hmem : r ∈ v.insertionSort (fun a b => a.sats_per_kvb ≤ b.sats_per_kvb) := by
      rcases List.getElem?_eq_some.mp hr with ⟨hlt, hg⟩
      rw [← hg]
      exact List.getElem_mem hlt
    exact (List.perm_insertionSort _ v).mem_iff.mp hmem

/-- C9 witness: spec scenario S2 fee proposals. -/
theorem process_fee_proposals_median_witness :
    process_fee_proposals
      [{ sats_per_kvb := 2000 }, { sats_per_kvb := 1500 }, { sats_per_kvb := 1800 }]
      = some { sats_per_kvb := 1800 } := by
  have h := (process_fee_proposals_median
    [{ sats_per_kvb := 2000 }, { sats_per_kvb := 1500 }, { sats_per_kvb := 1800 }]
    (by decide)).1
  rw [h]
  decide

theorem foldl_recognize_roundConsensus (cfg : WalletCfg)
    (pending : List (Nat × PendingTransaction)) :
    ∀ (txs : List Transaction) (s : WalletState),
      (txs.foldl (fun s2 transaction =>
        match lookupKV (cfg.txid_of transaction) pending with
        | some pending_tx => recognize_change_utxo cfg s2 pending_tx
        | none => s2) s).roundConsensus = s.roundConsensus := by
  intro txs
  induction txs with
  | nil => intro s; rfl
  | cons t rest ih =>
      intro s
      rw [List.foldl_cons, ih]
      cases lookupKV (cfg.txid_of t) pending <;> rfl

theorem foldl_recognize_pendingTxs (cfg : WalletCfg)
    (pending : List (Nat × PendingTransaction)) :
    ∀ (txs : List Transaction) (s : WalletState),
      (txs.foldl (fun s2 transaction =>
        match lookupKV (cfg.txid_of transaction) pending with
        | some pending_tx => recognize_change_utxo cfg s2 pending_tx
        | none => s2) s).pendingTxs = s.pendingTxs := by
  intro txs
  induction txs with
  | nil => intro s; rfl
  | cons t rest ih =>
      intro s
      rw [List.foldl_cons, ih]
      cases lookupKV (cfg.txid_of t) pending <;> rfl

theorem syncHeightStep_roundConsensus (cfg : WalletCfg) (s : WalletState) (h : Nat) :
    (syncHeightStep cfg s h).roundConsensus = s.roundConsensus := by
  unfold syncHeightStep
  by_cases hp : s.pendingTxs.isEmpty <;>
    simp [hp, foldl_recognize_roundConsensus]

theorem syncHeightStep_pendingTxs (cfg : WalletCfg) (s : WalletState) (h : Nat) :
    (syncHeightStep cfg s h).pendingTxs = s.pendingTxs := by
  unfold syncHeightStep
  by_cases hp : s.pendingTxs.isEmpty <;>
    simp [hp, foldl_recognize_pendingTxs]

theorem foldl_syncHeightStep_roundConsensus (cfg : WalletCfg) :
    ∀ (l : List Nat) (s : WalletState),
      (l.foldl (syncHeightStep cfg) s).roundConsensus = s.roundConsensus := by
  intro l
  induction l with
  | nil => intro s; rfl
  | cons a rest ih =>
      intro s
      rw [List.foldl_cons, ih, syncHeightStep_roundConsensus]

theorem foldl_syncHeightStep_pendingTxs (cfg : WalletCfg) :
    ∀ (l : List Nat) (s : WalletState),
      (l.foldl (syncHeightStep cfg) s).pendingTxs = s.pendingTxs := by
  intro l
  induction l with
  | nil => intro s; rfl
  | cons a rest ih =>
      intro s
      rw [List.foldl_cons, ih, syncHeightStep_pendingTxs]

theorem sync_roundConsensus (cfg : WalletCfg) (st : WalletState) (nh : Nat) :
    (sync_up_to_consensus_height cfg st nh).roundConsensus = st.roundConsensus := by
  unfold sync_up_to_consensus_height
  by_cases h1 : nh < (consensus_height st).getD 0
  · simp [h1]
  · by_cases h2 : nh = (consensus_height st).getD 0 <;>
      simp [h1, h2, foldl_syncHeightStep_roundConsensus]

theorem sync_pendingTxs (cfg : WalletCfg) (st : WalletState) (nh : Nat) :
    (sync_up_to_consensus_height cfg st nh).pendingTxs = st.pendingTxs := by
  unfold sync_up_to_consensus_height
  by_cases h1 : nh < (consensus_height st).getD 0
  · simp [h1]
  · by_cases h2 : nh = (consensus_height st).getD 0 <;>
      simp [h1, h2, foldl_syncHeightStep_pendingTxs]

theorem save_peg_out_signatures_roundConsensus (st : WalletState)
    (n : List (Nat × PegOutNonceItem)) (s : List (Nat × PegOutSignatureItem)) :
    (save_peg_out_signatures st n s).roundConsensus = st.roundConsensus := rfl

theorem process_block_height_some (cfg : WalletCfg) (st : WalletState)
    (proposals : List Nat) (m : Nat) (st' : WalletState)
    (h : process_block_height_proposals cfg st proposals = some (m, st')) :
    (consensus_height st).getD 0 ≤ m
    ∧ m = (proposals.insertionSort (· ≤ ·)).getD (proposals.length / 2) 0
    ∧ st' = sync_up_to_consensus_height cfg st m := by
  unfold process_block_height_proposals at h
  by_cases he : proposals.isEmpty
  · simp [he] at h
  · simp only [he, Bool.false_eq_true, if_false] at h
    by_cases hm : (consensus_height st).getD 0 ≤
        (proposals.insertionSort (· ≤ ·)).getD (proposals.length / 2) 0
    · rw [if_pos hm] at h
      have h' := Option.some.inj h
      obtain ⟨h1, h2⟩ := Prod.mk.injEq _ _ _ _ ▸ h'
      subst h1
      exact ⟨hm, rfl, h2.symm⟩
    · rw [if_neg hm] at h
      cases h

/-- C3: the consensus block height is monotonically non-decreasing: a
non-empty proposal vector makes `process_block_height_proposals` either
return the sorted median, which is `>=` the stored consensus height, or
panic; and every successful `begin_consensus_epoch` (the only writer of
`RoundConsensusKey`) stores a height `>=` the previous one. -/
theorem block_height_monotone (cfg : WalletCfg) (st : WalletState) (proposals : List Nat)
    (hv : proposals ≠ []) :
    (∀ m st', process_block_height_proposals cfg st proposals = some (m, st') →
        (consensus_height st).getD 0 ≤ m
        ∧ m = (proposals.insertionSort (· ≤ ·)).getD (proposals.length / 2) 0)
    ∧ (process_block_height_proposals cfg st proposals = none ↔
        (proposals.insertionSort (· ≤ ·)).getD (proposals.length / 2) 0 <
          (consensus_height st).getD 0)
    ∧ (∀ items st', begin_consensus_epoch cfg st items = some st' →
        (consensus_height st).getD 0 ≤ (consensus_height st').getD 0) := by
  have hempty : proposals.isEmpty = false := by
    cases proposals with
    | nil => exact absurd rfl hv
    | cons a l => rfl
  refine ⟨?_, ?_, ?_⟩
  · intro m st' h
    have := process_block_height_some cfg st proposals m st' h
    exact ⟨this.1, this.2.1⟩
  · unfold process_block_height_proposals
    simp only [hempty, Bool.false_eq_true, if_false]
    by_cases hm : (consensus_height st).getD 0 ≤
        (proposals.insertionSort (· ≤ ·)).getD (proposals.length / 2) 0
    · rw [if_pos hm]
      constructor
      · intro hh; cases hh
      · intro hh; omega
    · rw [if_neg hm]
      constructor
      · intro _; omega
      · intro _; rfl
  · intro items st' h
    unfold begin_consensus_epoch at h
    by_cases hre : (items.filterMap (fun pi =>
        match pi.2 with
        | WalletConsensusItem.roundConsensus rc => some (pi.1, rc)
        | _ => none)).isEmpty
    · simp [hre] at h
    · simp only [hre, Bool.false_eq_true, if_false] at h
      cases hfee : process_fee_proposals ((items.filterMap (fun pi =>
          match pi.2 with
          | WalletConsensusItem.roundConsensus rc => some (pi.1, rc)
          | _ => none)).map (fun pr => pr.2.fee_rate)) with
      | none => rw [hfee] at h; cases h
      | some fee =>
          rw [hfee] at h
          cases hbh : process_block_height_proposals cfg
              (save_peg_out_signatures st
                (items.filterMap (fun pi =>
                  match pi.2 with
                  | WalletConsensusItem.pegOutNonce n => some (pi.1, n)
                  | _ => none))
                (items.filterMap (fun pi =>
                  match pi.2 with
                  | WalletConsensusItem.pegOutSignature s => some (pi.1, s)
                  | _ => none)))
              ((items.filterMap (fun pi =>
                match pi.2 with
                | WalletConsensusItem.roundConsensus rc => some (pi.1, rc)
                | _ => none)).map (fun pr => pr.2.block_height)) with
          | none => rw [hbh] at h; cases h
          | some pr =>
              obtain ⟨bh, st2⟩ := pr
              rw [hbh] at h
              have hmono := (process_block_height_some _ _ _ _ _ hbh).1
              rw [← Option.some.inj h]
              simp only [consensus_height, current_round_consensus,
                save_peg_out_signatures] at hmono ⊢
              simpa using hmono

/-- C3 witness: proposals `[5,3,7]` over the empty store give median 5. -/
theorem block_height_monotone_witness :
    (consensus_height stEmpty).getD 0 ≤ 5
    ∧ 5 = (([5, 3, 7] : List Nat).insertionSort (· ≤ ·)).getD (([5, 3, 7] : List Nat).length / 2) 0 :=
  (block_height_monotone cfg0 stEmpty [5, 3, 7] (by decide)).1 5
    { stEmpty with blockHashes := [1, 2, 3, 4, 5] } (by decide)

/-- C5 counterexample: `pend5.tx` is recognized in the confirmed block at
height 1 (its change UTXO is inserted), yet the `PendingTransactionKey`
row is still present afterwards — recognition does not delete it. -/
theorem pending_tx_not_deleted_counterexample :
    sync_up_to_consensus_height cfg5 st5 1 =
      { st5 with blockHashes := [1]
                 utxos := [((0, 0), { tweak := [7], amount := 1000 })] }
    ∧ lookupKV 0 (sync_up_to_consensus_height cfg5 st5 1).pendingTxs = some pend5 := by
  decide

/-- C5 amended: recognition of a pending transaction in a confirmed block
creates the change `SpendableUTXO` but does not delete the
`PendingTransactionKey` row; neither `sync_up_to_consensus_height` nor the
broadcaster (which only reads and submits) ever modifies the pending
table — no code path in this module deletes a pending transaction. -/
theorem pending_tx_rows_preserved (cfg : WalletCfg) (st : WalletState)
    (p : PendingTransaction) (h : Nat) :
    (recognize_change_utxo cfg st p).pendingTxs = st.pendingTxs
    ∧ (sync_up_to_consensus_height cfg st h).pendingTxs = st.pendingTxs
    ∧ broadcast_pending_tx st = st.pendingTxs.map (fun kv => kv.2.tx) :=
  ⟨rfl, sync_pendingTxs cfg st h, rfl⟩

theorem end_epoch_run_decomp (cfg : WalletCfg) (peers : List Nat) (st : WalletState)
    (st' : WalletState) (drop : List Nat)
    (h : end_consensus_epoch cfg peers st = some (st', drop)) :
    computeDropPeers cfg.verify_share peers (txsWithNonces st) (txsWithSignatureShares st)
        = some drop
    ∧ ∃ st1,
        advanceLoop cfg drop ((txsWithSignatureShares st).map Prod.fst)
          (txsWithNonces st) st = some st1
        ∧ finalizeLoop cfg (txsWithSignatureShares st) st1 = some st' := by
  simp only [end_consensus_epoch] at h
  split at h
  · cases h
  · rename_i d hd
    split at h
    · cases h
    · rename_i s1 ha
      split at h
      · cases h
      · rename_i s2 hf
        have h' := Option.some.inj h
        injection h' with h1 h2
        subst h1
        subst h2
        exact ⟨hd, s1, ha, hf⟩

theorem advanceLoop_preserves (cfg : WalletCfg) (drop skip : List Nat) :
    ∀ (rows : List (Nat × UnsignedTransaction)) (s s' : WalletState),
      advanceLoop cfg drop skip rows s = some s' →
      ∀ t, t ∉ rows.map Prod.fst →
        lookupKV t s'.unsignedTxs = lookupKV t s.unsignedTxs
        ∧ lookupKV t s'.nonceCI = lookupKV t s.nonceCI
        ∧ lookupKV t s'.sigCI = lookupKV t s.sigCI := by
  intro rows
  induction rows with
  | nil =>
      intro s s' h t _
      simp only [advanceLoop] at h
      cases h
      exact ⟨rfl, rfl, rfl⟩
  | cons kv rest ih =>
      intro s s' h t ht
      simp only [List.map_cons, List.mem_cons, not_or] at ht
      obtain ⟨ht1, ht2⟩ := ht
      simp only [advanceLoop] at h
      by_cases hskip : skip.contains kv.1
      · rw [if_pos hskip] at h
        exact ih s s' h t ht2
      · rw [if_neg hskip] at h
        cases har : advanceResult cfg drop kv.1 kv.2 with
        | none => rw [har] at h; exact Option.noConfusion h
        | some o =>
            rw [har] at h
            cases o with
            | none => exact ih s s' h t ht2
            | some pr =>
                obtain ⟨u', shares⟩ := pr
                have hrec := ih _ s' h t ht2
                refine ⟨?_, ?_, ?_⟩
                · rw [hrec.1]
                  exact lookupKV_insert_other ht1 _ _
                · rw [hrec.2.1]
                  exact lookupKV_erase_other ht1 _
                · rw [hrec.2.2]
                  exact lookupKV_insert_other ht1 _ _

theorem advanceLoop_processes (cfg : WalletCfg) (drop skip : List Nat) :
    ∀ (rows : List (Nat × UnsignedTransaction)) (s s' : WalletState),
      advanceLoop cfg drop skip rows s = some s' →
      (rows.map Prod.fst).Nodup →
      ∀ txid u, (txid, u) ∈ rows → ¬ skip.contains txid →
        (advanceResult cfg drop txid u = none → False)
        ∧ (advanceResult cfg drop txid u = some none →
            lookupKV txid s'.unsignedTxs = lookupKV txid s.unsignedTxs
            ∧ lookupKV txid s'.nonceCI = lookupKV txid s.nonceCI
            ∧ lookupKV txid s'.sigCI = lookupKV txid s.sigCI)
        ∧ (∀ u' shares, advanceResult cfg drop txid u = some (some (u', shares)) →
            lookupKV txid s'.unsignedTxs = some u'
            ∧ lookupKV txid s'.nonceCI = none
            ∧ lookupKV txid s'.sigCI = some shares) := by
  intro rows
  induction rows with
  | nil => intro s s' h hnd txid u hmem; cases hmem
  | cons kv rest ih =>
      intro s s' h hnd txid u hmem hskip
      simp only [List.map_cons, List.nodup_cons] at hnd
      simp only [advanceLoop] at h
      obtain ⟨k1, v1⟩ := kv
      rcases List.mem_cons.mp hmem with hhead | htail
      · cases hhead
        rw [if_neg hskip] at h
        cases har : advanceResult cfg drop txid u with
        | none => rw [har] at h; exact Option.noConfusion h
        | some o =>
            rw [har] at h
            cases o with
            | none =>
                have hpres := advanceLoop_preserves cfg drop skip rest s s' h txid hnd.1
                refine ⟨?_, ?_, ?_⟩
                · intro hc; simp at hc
                · intro _; exact hpres
                · intro u' shares hc; simp at hc
            | some pr =>
                obtain ⟨u', shares⟩ := pr
                have hpres := advanceLoop_preserves cfg drop skip rest _ s' h txid hnd.1
                refine ⟨?_, ?_, ?_⟩
                · intro hc; simp at hc
                · intro hc; simp at hc
                · intro u'' shares'' hc
                  have hc' := Option.some.inj (Option.some.inj hc)
                  injection hc' with hcu hcs
                  subst hcu
                  subst hcs
                  refine ⟨?_, ?_, ?_⟩
                  · rw [hpres.1]
                    exact lookupKV_insert_self _ _ _
                  · rw [hpres.2.1]
                    exact lookupKV_erase_self _ _
                  · rw [hpres.2.2]
                    exact lookupKV_insert_self _ _ _
      · have hne : txid ≠ k1 := by
          intro he
          have hmm2 : (txid, u).1 ∈ List.map Prod.fst rest :=
            List.mem_map_of_mem Prod.fst htail
          exact hnd.1 (he ▸ hmm2)
        by_cases hskip1 : skip.contains k1
        · rw [if_pos hskip1] at h
          exact ih s s' h hnd.2 txid u htail hskip
        · rw [if_neg hskip1] at h
          cases har : advanceResult cfg drop k1 v1 with
          | none => rw [har] at h; exact Option.noConfusion h
          | some o =>
              rw [har] at h
              cases o with
              | none => exact ih s s' h hnd.2 txid u htail hskip
              | some pr =>
                  obtain ⟨u', shares⟩ := pr
                  have hih := ih _ s' h hnd.2 txid u htail hskip
                  refine ⟨hih.1, ?_, hih.2.2⟩
                  intro ha2
                  obtain ⟨p1, p2, p3⟩ := hih.2.1 ha2
                  refine ⟨?_, ?_, ?_⟩
                  · rw [p1]
                    exact lookupKV_insert_other hne _ _
                  · rw [p2]
                    exact lookupKV_erase_other hne _
                  · rw [p3]
                    exact lookupKV_insert_other hne _ _

theorem finalizeLoop_preserves (cfg : WalletCfg) :
    ∀ (rows : List (Nat × UnsignedTransaction)) (s s' : WalletState),
      finalizeLoop cfg rows s = some s' →
      ∀ t, t ∉ rows.map Prod.fst →
        lookupKV t s'.unsignedTxs = lookupKV t s.unsignedTxs
        ∧ lookupKV t s'.nonceCI = lookupKV t s.nonceCI
        ∧ lookupKV t s'.sigCI = lookupKV t s.sigCI := by
  intro rows
  induction rows with
  | nil =>
      intro s s' h t _
      simp only [finalizeLoop] at h
      cases h
      exact ⟨rfl, rfl, rfl⟩
  | cons kv rest ih =>
      intro s s' h t ht
      simp only [List.map_cons, List.mem_cons, not_or] at ht
      obtain ⟨ht1, ht2⟩ := ht
      simp only [finalizeLoop] at h
      cases hf : finalizeStep cfg kv.1 kv.2 s with
      | none => rw [hf] at h; exact Option.noConfusion h
      | some s2 =>
          rw [hf] at h
          have hrec := ih s2 s' h t ht2
          have hstep : lookupKV t s2.unsignedTxs = lookupKV t s.unsignedTxs
              ∧ lookupKV t s2.nonceCI = lookupKV t s.nonceCI
              ∧ lookupKV t s2.sigCI = lookupKV t s.sigCI := by
            simp only [finalizeStep] at hf
            split at hf
            · cases hf
            · split at hf
              · split at hf
                · cases hf
                · cases hf
                  refine ⟨?_, rfl, ?_⟩
                  · exact lookupKV_erase_other ht1 _
                  · exact lookupKV_erase_other ht1 _
              · cases hf
                exact ⟨rfl, rfl, rfl⟩
          exact ⟨hrec.1.trans hstep.1, hrec.2.1.trans hstep.2.1, hrec.2.2.trans hstep.2.2⟩

/-- C6: drop-peer determinism: two successful runs of
`end_consensus_epoch` starting from identical stored
`UnsignedTransaction` rows and the same consensus peer set return
`drop_peers` collections that are equal as sets.  The runs may differ in
the local peer id and in the rest of the store — in particular in the
per-peer staging tables `PegOutTxNonceCI` / `PegOutTxSignatureCI`, which
normally differ across peers — because the fault-detection loops read
only the unsigned rows, the peer set and the shared FROST verification
function. -/
theorem end_consensus_epoch_drop_deterministic (cfg : WalletCfg) (pid : Nat)
    (peers : List Nat) (stA stB : WalletState)
    (hst : stA.unsignedTxs = stB.unsignedTxs)
    (sA sB : WalletState) (d1 d2 : List Nat)
    (h1 : end_consensus_epoch { cfg with peer_id := pid } peers stA = some (sA, d1))
    (h2 : end_consensus_epoch cfg peers stB = some (sB, d2)) :
    ∀ q, q ∈ d1 ↔ q ∈ d2 := by
  have e1 := (end_epoch_run_decomp _ _ _ _ _ h1).1
  have e2 := (end_epoch_run_decomp _ _ _ _ _ h2).1
  have hv : ({ cfg with peer_id := pid } : WalletCfg).verify_share = cfg.verify_share := rfl
  have hN : txsWithNonces stA = txsWithNonces stB := by
    simp only [txsWithNonces, hst]
  have hS : txsWithSignatureShares stA = txsWithSignatureShares stB := by
    simp only [txsWithSignatureShares, hst]
  rw [hv, hN, hS] at e1
  have hd : d1 = d2 := Option.some.inj (e1.symm.trans e2)
  intro q
  rw [hd]

/-- C6 witness: two runs sharing only the unsigned row `(7, uW)` — the
first as peer 1 with a staged `PegOutTxNonceCI` row, the second as peer 0
with empty staging tables — both drop exactly peer 3, who contributed no
nonce. -/
theorem end_consensus_epoch_drop_deterministic_witness :
    (3 ∈ ([3] : List Nat)) ↔ (3 ∈ ([3] : List Nat)) :=
  end_consensus_epoch_drop_deterministic cfg0 1 [1, 2, 3]
    { stW with nonceCI := [(7, [])] } stW rfl stWres stWres [3] [3]
    (by decide) (by decide) 3

/-- C2 counterexample: a stored row whose nonce list holds the staged item
of peer 1 twice (a peer re-emits its `PegOutTxNonceCI` every epoch until
it is consumed).  With threshold 2 and no dropped peers the list
"after removing contributors in drop_peers" has length 2 >= threshold,
yet the epoch ends with the row and both staging slots untouched: the
code collapses the list to one entry per peer (`BTreeMap`) before the
threshold comparison. -/
theorem end_epoch_threshold_gating_counterexample :
    cfg0.threshold ≤ (u2.nonces.filter (fun pn => !(([] : List Nat).contains pn.1))).length
    ∧ end_consensus_epoch cfg0 [1] st2c = some (st2c, [])
    ∧ lookupKV 7 st2c.sigCI = none
    ∧ lookupKV 7 st2c.unsignedTxs = some u2 := by
  decide

/-- C2 amended: in `end_consensus_epoch`, for a stored row with non-empty
nonces and empty signatures, the local signature shares are produced and
persisted (`PegOutTxNonceCI(txid)` deleted, `PegOutTxSignatureCI(txid)`
inserted, the row overwritten with the drop-peer-filtered nonce set
collapsed to one entry per peer in ascending peer order) if and only if
that deduplicated filtered nonce list has length >= the FROST threshold;
otherwise the row and both staging slots are unchanged that epoch
(provided the epoch completes without panicking). -/
theorem end_epoch_threshold_gating (cfg : WalletCfg) (peers : List Nat) (st : WalletState)
    (txid : Nat) (u : UnsignedTransaction) (st' : WalletState) (drop : List Nat)
    (hnd : (st.unsignedTxs.map Prod.fst).Nodup)
    (hrow : lookupKV txid st.unsignedTxs = some u)
    (hn : u.nonces ≠ []) (hs : u.signatures = [])
    (hrun : end_consensus_epoch cfg peers st = some (st', drop)) :
    (cfg.threshold ≤ (filteredNonces drop u).length →
        lookupKV txid st'.unsignedTxs = some { u with nonces := filteredNonces drop u }
        ∧ lookupKV txid st'.nonceCI = none
        ∧ lookupKV txid st'.sigCI =
            some (advanceShares cfg txid { u with nonces := filteredNonces drop u }))
    ∧ ((filteredNonces drop u).length < cfg.threshold →
        lookupKV txid st'.unsignedTxs = some u
        ∧ lookupKV txid st'.nonceCI = lookupKV txid st.nonceCI
        ∧ lookupKV txid st'.sigCI = lookupKV txid st.sigCI) := by
  obtain ⟨hdrop, st1, hadv, hfin⟩ := end_epoch_run_decomp cfg peers st st' drop hrun
  have hmem : (txid, u) ∈ st.unsignedTxs := lookupKV_mem hrow
  have hmemN : (txid, u) ∈ txsWithNonces st := by
    apply List.mem_filter.mpr
    refine ⟨hmem, ?_⟩
    simp [hn, hs]
  have hndN : ((txsWithNonces st).map Prod.fst).Nodup :=
    List.Nodup.sublist (List.Sublist.map Prod.fst (List.filter_sublist _)) hnd
  have hnotmemS : txid ∉ (txsWithSignatureShares st).map Prod.fst := by
    intro hc
    obtain ⟨⟨k, w⟩, hwmem, hk⟩ := List.mem_map.mp hc
    have hw2 : (k, w) ∈ st.unsignedTxs := (List.mem_filter.mp hwmem).1
    have hcond := (List.mem_filter.mp hwmem).2
    subst hk
    have hwu : w = u := mem_unique_of_nodup_keys hnd hw2 hmem
    subst hwu
    simp [hs] at hcond
  have hnotskip : ¬ ((txsWithSignatureShares st).map Prod.fst).contains txid := by
    intro hc
    exact hnotmemS (by simpa using hc)
  have hB := advanceLoop_processes cfg drop ((txsWithSignatureShares st).map Prod.fst)
    (txsWithNonces st) st st1 hadv hndN txid u hmemN hnotskip
  have hF := finalizeLoop_preserves cfg (txsWithSignatureShares st) st1 st' hfin
    txid hnotmemS
  constructor
  · intro hth
    have hth' : cfg.threshold ≤
        ({ u with nonces := filteredNonces drop u } : UnsignedTransaction).nonces.length := hth
    by_cases hwf : ((List.range
        ({ u with nonces := filteredNonces drop u } : UnsignedTransaction).psbt.inputs.length).all
        (fun i => signSessionWf { u with nonces := filteredNonces drop u } i)) = true
    · have har : advanceResult cfg drop txid u =
          some (some ({ u with nonces := filteredNonces drop u },
            advanceShares cfg txid { u with nonces := filteredNonces drop u })) := by
        simp only [advanceResult]
        rw [if_pos hth', if_pos hwf]
      obtain ⟨q1, q2, q3⟩ := hB.2.2 _ _ har
      exact ⟨hF.1.trans q1, hF.2.1.trans q2, hF.2.2.trans q3⟩
    · exfalso
      apply hB.1
      simp only [advanceResult]
      rw [if_pos hth', if_neg hwf]
  · intro hth
    have hth' : ¬ (cfg.threshold ≤
        ({ u with nonces := filteredNonces drop u } : UnsignedTransaction).nonces.length) :=
      Nat.not_le.mpr hth
    have har : advanceResult cfg drop txid u = some none := by
      simp only [advanceResult]
      rw [if_neg hth']
    obtain ⟨q1, q2, q3⟩ := hB.2.1 har
    refine ⟨?_, ?_, ?_⟩
    · rw [hF.1.trans q1, hrow]
    · exact hF.2.1.trans q2
    · exact hF.2.2.trans q3

/-- C2 amended witness: with nonces from two distinct peers and threshold
2, the epoch persists the signing-phase rows for txid 7. -/
theorem end_epoch_threshold_gating_witness :
    lookupKV 7 stWres.unsignedTxs = some { uW with nonces := filteredNonces [] uW }
    ∧ lookupKV 7 stWres.nonceCI = none
    ∧ lookupKV 7 stWres.sigCI =
        some (advanceShares cfg0 7 { uW with nonces := filteredNonces [] uW }) :=
  (end_epoch_threshold_gating cfg0 [1, 2] stW 7 uW stWres []
    (by decide) (by decide) (by decide) (by decide) (by decide)).1 (by decide)

end Minimint
